import Mathlib

/-!
Verification of the fuzzy inference engine in `feiryrej/fuzzy-car-speed`.

The repository has two variants of the same Mamdani pipeline:
* `laundry.py` — breakpoint-table membership functions (`get_membership`),
  nine hardcoded rules (`apply_rules`), max-of-clipped aggregation
  (`aggregate`), centroid defuzzification with a `0.0` fallback
  (`defuzzify`).
* `main.py` — class `FuzzyLogicSystem` with trapezoidal/triangular
  membership functions (`trapmf`, `trimf`), two rules (`apply_rules`),
  vectorized aggregation (`aggregate_outputs`) and centroid
  defuzzification with a fallback of `50` (`defuzzify`).

Real numbers are modelled by `ℚ`; Python dicts of degrees are modelled by
association lists `List (String × ℚ)` with the `.get(k, 0.0)` lookup
`dget`.
-/

/-- Python dict from label to degree, in insertion order. -/
abbrev Dict := List (String × ℚ)

/-- Python `d.get(k, 0.0)`: look a key up in a degree dict, defaulting to `0`. -/
def dget (d : Dict) (k : String) : ℚ :=
  ((d.find? (fun p => p.1 == k)).map Prod.snd).getD 0

/-- One iteration of the bracketing loop body of `laundry.py`'s
`get_membership`, evaluated on the segment `(x1,y1)=p`, `(x2,y2)=q`
(the branch taken once `x1 <= input_val <= x2` holds). -/
def segEval (x : ℚ) (p q : ℚ × ℚ) : ℚ :=
  if x = p.1 then p.2
  else if x = q.1 then q.2
  else if p.2 = q.2 then p.2
  else if p.1 = q.1 then p.2
  else
    let slope := (q.2 - p.2) / (q.1 - p.1)
    let intercept := p.2 - slope * p.1
    slope * x + intercept

/-- The `for i in range(len(points) - 1)` loop of `get_membership`:
scan consecutive pairs, evaluate the first bracketing segment, and fall
through to `0.0` when no segment brackets `x`. -/
def scanSegments (x : ℚ) : List (ℚ × ℚ) → ℚ
  | p :: q :: rest =>
      if p.1 ≤ x ∧ x ≤ q.1 then segEval x p q
      else scanSegments x (q :: rest)
  | _ => 0

/-- The `laundry.py` function `get_membership(input_val, points)`: empty table gives
`0.0`; clamp at or before the first breakpoint and at or after the last;
otherwise scan for the bracketing segment. -/
def get_membership (x : ℚ) (points : List (ℚ × ℚ)) : ℚ :=
  match points with
  | [] => 0
  | p :: rest =>
    if x ≤ p.1 then p.2
    else if ((p :: rest).getLast (List.cons_ne_nil p rest)).1 ≤ x then
      ((p :: rest).getLast (List.cons_ne_nil p rest)).2
    else scanSegments x (p :: rest)

/-- The `laundry.py` function `fuzzify(input_val, mfs)`: one membership per label. -/
def fuzzify (x : ℚ) (mfs : List (String × List (ℚ × ℚ))) : Dict :=
  mfs.map (fun p => (p.1, get_membership x p.2))

/-- The `laundry.py` function `apply_rules(dirtiness_mfs, quantity_mfs)`: nine
hardcoded rules; each consequent entry is built by successive
`max` updates starting from `0.0`. -/
def apply_rules (dirtiness_mfs quantity_mfs : Dict) : Dict :=
  let rule1 := min (dget dirtiness_mfs "Low") (dget quantity_mfs "Light")
  let rule2 := min (dget dirtiness_mfs "Low") (dget quantity_mfs "Medium")
  let rule3 := min (dget dirtiness_mfs "Low") (dget quantity_mfs "Heavy")
  let rule4 := min (dget dirtiness_mfs "Medium") (dget quantity_mfs "Light")
  let rule5 := min (dget dirtiness_mfs "Medium") (dget quantity_mfs "Medium")
  let rule6 := min (dget dirtiness_mfs "Medium") (dget quantity_mfs "Heavy")
  let rule7 := min (dget dirtiness_mfs "High") (dget quantity_mfs "Light")
  let rule8 := min (dget dirtiness_mfs "High") (dget quantity_mfs "Medium")
  let rule9 := min (dget dirtiness_mfs "High") (dget quantity_mfs "Heavy")
  let light := max (max (max (max 0 rule1) rule2) rule4) rule7
  let normal := max 0 rule5
  let strong := max (max (max (max 0 rule3) rule6) rule8) rule9
  [("Light", light), ("Normal", normal), ("Strong", strong)]

/-- The `laundry.py` function `aggregate(x_intensity, activations, intensity_mfs)`:
fold over the activation dict, clipping each positively activated
label's membership at its strength and taking the running max from
`0.0`; labels with strength `<= 0` are skipped. -/
def aggregate (x : ℚ) (activations : Dict)
    (intensity_mfs : String → List (ℚ × ℚ)) : ℚ :=
  activations.foldl
    (fun agg p =>
      if p.2 > 0 then max agg (min p.2 (get_membership x (intensity_mfs p.1)))
      else agg)
    0

/-- The sample abscissas of `laundry.py` `defuzzify`:
`min_x + i * (max_x - min_x) / (num_samples - 1)` with domain `[0,100]`. -/
def x_samples (n : ℕ) : List ℚ :=
  (List.range n).map (fun i : ℕ => 0 + (i : ℚ) * (100 - 0) / ((n : ℚ) - 1))

/-- The `agg_points` list accumulated by `defuzzify`. -/
def agg_points (activations : Dict) (intensity_mfs : String → List (ℚ × ℚ))
    (n : ℕ) : List (ℚ × ℚ) :=
  (x_samples n).map (fun x => (x, aggregate x activations intensity_mfs))

/-- The `num_sum` accumulated by `defuzzify`: `Σ x_i * y_i`. -/
def num_sum (activations : Dict) (intensity_mfs : String → List (ℚ × ℚ))
    (n : ℕ) : ℚ :=
  ((agg_points activations intensity_mfs n).map (fun p => p.1 * p.2)).sum

/-- The `denom_sum` accumulated by `defuzzify`: `Σ y_i`. -/
def denom_sum (activations : Dict) (intensity_mfs : String → List (ℚ × ℚ))
    (n : ℕ) : ℚ :=
  ((agg_points activations intensity_mfs n).map Prod.snd).sum

/-- The `laundry.py` function `defuzzify(activations, intensity_mfs, num_samples)`:
the discretized centroid and the aggregated curve; returns `0.0` when
`denom_sum == 0`. -/
def defuzzify (activations : Dict) (intensity_mfs : String → List (ℚ × ℚ))
    (n : ℕ) : ℚ × List (ℚ × ℚ) :=
  if denom_sum activations intensity_mfs n = 0 then
    (0, agg_points activations intensity_mfs n)
  else
    (num_sum activations intensity_mfs n / denom_sum activations intensity_mfs n,
     agg_points activations intensity_mfs n)

/-- The table `MFS_DEFINITION["intensity"]` from `laundry.py`. -/
def intensityMfs : String → List (ℚ × ℚ)
  | "Light" => [(0, 1), (20, 1), (40, 0), (100, 0)]
  | "Normal" => [(0, 0), (30, 0), (50, 1), (70, 0), (100, 0)]
  | "Strong" => [(0, 0), (60, 0), (80, 1), (100, 1)]
  | _ => []

namespace FuzzyLogicSystem

/-- The fuzzified memberships dict built by `main.py`
`fuzzify_inputs` (keys `Cool`, `Warm`, `Sunny`, `Cloudy`). -/
structure Memberships where
  cool : ℚ
  warm : ℚ
  sunny : ℚ
  cloudy : ℚ

/-- The `main.py` method `FuzzyLogicSystem.trapmf(x, [a,b,c,d])` at a scalar `x`:
the masked assignments applied in program order to an initially zero
`y`, followed by `np.clip(y, 0, 1)`. -/
def trapmf (x a b c d : ℚ) : ℚ :=
  let y0 : ℚ := 0
  let y1 := if a ≤ x ∧ x ≤ b then (if b ≠ a then (x - a) / (b - a) else 1) else y0
  let y2 := if b < x ∧ x < c then 1 else y1
  let y3 := if c ≤ x ∧ x ≤ d then (if d ≠ c then (d - x) / (d - c) else 1) else y2
  let y4 := if b = c ∧ x = b then 1 else y3
  min (max y4 0) 1

/-- The `main.py` method `FuzzyLogicSystem.trimf(x, [a,b,c])` at a scalar `x`. -/
def trimf (x a b c : ℚ) : ℚ :=
  let y0 : ℚ := 0
  let y1 := if a ≤ x ∧ x ≤ b then (if b ≠ a then (x - a) / (b - a) else 1) else y0
  let y2 := if b < x ∧ x ≤ c then (if c ≠ b then (c - x) / (c - b) else 1) else y1
  let y3 := if x = b then 1 else y2
  min (max y3 0) 1

/-- The `main.py` method `FuzzyLogicSystem.apply_rules(memberships)`: rule 1
`min(Sunny, Warm) → Fast`, rule 2 `min(Cloudy, Cool) → Slow`;
result dict `{Fast, Slow}` as a pair. -/
def apply_rules (m : Memberships) : ℚ × ℚ :=
  (min m.sunny m.warm, min m.cloudy m.cool)

/-- The universe `self.speed_range = np.arange(0, 101, 1)`. -/
def speed_range : List ℚ :=
  (List.range 101).map (fun i : ℕ => (i : ℚ))

/-- The `main.py` method `FuzzyLogicSystem.aggregate_outputs(rule_outputs)`:
elementwise `np.maximum` of the two clipped (`np.minimum`) output
membership curves over `speed_range`, with the configured speed
trapezoids `Fast = [45,60,90,100]`, `Slow = [0,10,35,45]`. -/
def aggregate_outputs (ruleFast ruleSlow : ℚ) : List ℚ :=
  speed_range.map
    (fun x => max (min ruleFast (trapmf x 45 60 90 100))
                  (min ruleSlow (trapmf x 0 10 35 45)))

/-- The `main.py` method `FuzzyLogicSystem.defuzzify(output_fuzzy_set)`: returns
`50` when the curve sums to zero, else the discretized centroid
`np.sum(speed_range * output) / np.sum(output)`. -/
def defuzzify (output : List ℚ) : ℚ :=
  if output.sum = 0 then 50
  else ((speed_range.zip output).map (fun p => p.1 * p.2)).sum / output.sum

end FuzzyLogicSystem

/-- The loop body of `laundry.py`'s `aggregate`: clip a positively
activated label and take the running max, skip the rest. -/
def clipStep (memv : String → ℚ) (agg : ℚ) (p : String × ℚ) : ℚ :=
  if p.2 > 0 then max agg (min p.2 (memv p.1)) else agg

/-- Specification-side aggregation step: clip every label. -/
def fullStep (memv : String → ℚ) (agg : ℚ) (p : String × ℚ) : ℚ :=
  max agg (min p.2 (memv p.1))

/-- Aggregation per the specification (and per `main.py`'s
`aggregate_outputs`): the max over ALL output labels of
`min(strength, membership at the sample)`, starting from `0`. -/
def aggregate_all (memv : String → ℚ) (activations : Dict) : ℚ :=
  activations.foldl (fullStep memv) 0

/-- The membership view used by `main.py`'s aggregation: the two speed
trapezoids `Fast = [45,60,90,100]` and `Slow = [0,10,35,45]`. -/
def speedMem (x : ℚ) (l : String) : ℚ :=
  if l == "Fast" then FuzzyLogicSystem.trapmf x 45 60 90 100
  else FuzzyLogicSystem.trapmf x 0 10 35 45

/-- A rule: two antecedent labels (looked up in the first and second
reading respectively) and a consequent output label. -/
structure Rule where
  dLabel : String
  qLabel : String
  out : String

/-- The nine rules hardcoded in `laundry.py`'s `apply_rules`, in
program order. -/
def laundry_rules : List Rule :=
  [⟨"Low", "Light", "Light"⟩, ⟨"Low", "Medium", "Light"⟩,
   ⟨"Low", "Heavy", "Strong"⟩, ⟨"Medium", "Light", "Light"⟩,
   ⟨"Medium", "Medium", "Normal"⟩, ⟨"Medium", "Heavy", "Strong"⟩,
   ⟨"High", "Light", "Light"⟩, ⟨"High", "Medium", "Strong"⟩,
   ⟨"High", "Heavy", "Strong"⟩]

/-- The two rules of `main.py`'s `apply_rules`, both antecedents looked
up in the single memberships dict. -/
def main_rules : List Rule :=
  [⟨"Sunny", "Warm", "Fast"⟩, ⟨"Cloudy", "Cool", "Slow"⟩]

/-- Firing strength of one rule: the min of its antecedent degrees. -/
def rule_strength (d q : Dict) (r : Rule) : ℚ :=
  min (dget d r.dLabel) (dget q r.qLabel)

/-- Sequential max-update evaluation of a rule list for one output
label, starting from the `0.0` initial activation. -/
def eval_rules (d q : Dict) (rules : List Rule) (label : String) : ℚ :=
  (rules.filter (fun r => r.out == label)).foldl
    (fun acc r => max acc (rule_strength d q r)) 0

/-- The memberships dict built by `main.py`'s `fuzzify_inputs`. -/
def memDict (m : FuzzyLogicSystem.Memberships) : Dict :=
  [("Cool", m.cool), ("Warm", m.warm), ("Sunny", m.sunny),
   ("Cloudy", m.cloudy)]

/-- Breakpoints strictly increasing in x. -/
def ltX (p q : ℚ × ℚ) : Prop := p.1 < q.1

/-! ### Bound lemmas for the membership evaluators -/

lemma dget_nonneg {d : Dict} (h : ∀ p ∈ d, 0 ≤ p.2) (k : String) :
    0 ≤ dget d k := by
  unfold dget
  cases hf : d.find? (fun p => p.1 == k) with
  | none => simp
  | some p =>
    have := List.mem_of_find?_eq_some hf
    simpa using h p this

lemma segEval_interp {x : ℚ} {p q : ℚ × ℚ} (h1 : p.1 < x) (h2 : x < q.1) :
    segEval x p q = p.2 + (q.2 - p.2) * (x - p.1) / (q.1 - p.1) := by
  have hxp : x ≠ p.1 := ne_of_gt h1
  have hxq : x ≠ q.1 := ne_of_lt h2
  have hpq : q.1 - p.1 ≠ 0 := by
    have : p.1 < q.1 := lt_trans h1 h2
    exact sub_ne_zero.mpr (ne_of_gt this)
  unfold segEval
  rw [if_neg hxp, if_neg hxq]
  by_cases hy : p.2 = q.2
  · rw [if_pos hy, hy]
    field_simp
  · rw [if_neg hy]
    have hx1 : p.1 ≠ q.1 := by
      have : p.1 < q.1 := lt_trans h1 h2
      exact ne_of_lt this
    rw [if_neg hx1]
    field_simp
    ring

lemma segEval_bounds {x : ℚ} {p q : ℚ × ℚ}
    (hp : 0 ≤ p.2 ∧ p.2 ≤ 1) (hq : 0 ≤ q.2 ∧ q.2 ≤ 1)
    (hx1 : p.1 ≤ x) (hx2 : x ≤ q.1) :
    0 ≤ segEval x p q ∧ segEval x p q ≤ 1 := by
  by_cases hxp : x = p.1
  · unfold segEval; rw [if_pos hxp]; exact hp
  by_cases hxq : x = q.1
  · unfold segEval; rw [if_neg hxp, if_pos hxq]; exact hq
  have h1 : p.1 < x := lt_of_le_of_ne hx1 (Ne.symm hxp)
  have h2 : x < q.1 := lt_of_le_of_ne hx2 hxq
  rw [segEval_interp h1 h2]
  have hd : 0 < q.1 - p.1 := by linarith
  have hn : 0 < x - p.1 := by linarith
  have ht1 : 0 < (x - p.1) / (q.1 - p.1) := div_pos hn hd
  have ht2 : (x - p.1) / (q.1 - p.1) < 1 := by
    rw [div_lt_one hd]; linarith
  rw [mul_div_assoc]
  set t := (x - p.1) / (q.1 - p.1) with hts
  have hA : 0 ≤ p.2 * (1 - t) := mul_nonneg hp.1 (by linarith)
  have hB : 0 ≤ q.2 * t := mul_nonneg hq.1 (le_of_lt ht1)
  have hC : 0 ≤ (1 - p.2) * (1 - t) :=
    mul_nonneg (by linarith [hp.2]) (by linarith)
  have hD : 0 ≤ (1 - q.2) * t := mul_nonneg (by linarith [hq.2]) (le_of_lt ht1)
  constructor
  · nlinarith [hA, hB]
  · nlinarith [hC, hD]

lemma scanSegments_bounds {x : ℚ} {l : List (ℚ × ℚ)}
    (h : ∀ r ∈ l, 0 ≤ r.2 ∧ r.2 ≤ 1) :
    0 ≤ scanSegments x l ∧ scanSegments x l ≤ 1 := by
  induction l with
  | nil => simp [scanSegments]
  | cons p rest ih =>
    cases rest with
    | nil => simp [scanSegments]
    | cons q rest2 =>
      rw [scanSegments]
      by_cases hb : p.1 ≤ x ∧ x ≤ q.1
      · rw [if_pos hb]
        exact segEval_bounds (h p (by simp)) (h q (by simp)) hb.1 hb.2
      · rw [if_neg hb]
        exact ih (fun r hr => h r (List.mem_cons_of_mem p hr))

lemma get_membership_bounds {x : ℚ} {points : List (ℚ × ℚ)}
    (h : ∀ p ∈ points, 0 ≤ p.2 ∧ p.2 ≤ 1) :
    0 ≤ get_membership x points ∧ get_membership x points ≤ 1 := by
  cases points with
  | nil => simp [get_membership]
  | cons p rest =>
    rw [get_membership]
    by_cases h1 : x ≤ p.1
    · rw [if_pos h1]; exact h p (by simp)
    rw [if_neg h1]
    by_cases h2 : ((p :: rest).getLast (List.cons_ne_nil p rest)).1 ≤ x
    · rw [if_pos h2]
      exact h _ (List.getLast_mem (List.cons_ne_nil p rest))
    · rw [if_neg h2]
      exact scanSegments_bounds h

lemma trapmf_bounds (x a b c d : ℚ) :
    0 ≤ FuzzyLogicSystem.trapmf x a b c d ∧
      FuzzyLogicSystem.trapmf x a b c d ≤ 1 := by
  unfold FuzzyLogicSystem.trapmf
  refine ⟨le_min (le_max_right _ _) (by norm_num), min_le_right _ _⟩

lemma trimf_bounds (x a b c : ℚ) :
    0 ≤ FuzzyLogicSystem.trimf x a b c ∧
      FuzzyLogicSystem.trimf x a b c ≤ 1 := by
  unfold FuzzyLogicSystem.trimf
  refine ⟨le_min (le_max_right _ _) (by norm_num), min_le_right _ _⟩

/-- Claim C7: for breakpoint tables whose degrees lie in `[0,1]`,
`laundry.py`'s `get_membership` returns a value in `[0,1]`, and
`main.py`'s `trapmf` and `trimf` return values in `[0,1]`
unconditionally (they end with `np.clip(y, 0, 1)`). -/
theorem claim_C7_membership_clamped (x a b c d : ℚ)
    (points : List (ℚ × ℚ)) (h : ∀ p ∈ points, 0 ≤ p.2 ∧ p.2 ≤ 1) :
    (0 ≤ get_membership x points ∧ get_membership x points ≤ 1) ∧
    (0 ≤ FuzzyLogicSystem.trapmf x a b c d ∧
      FuzzyLogicSystem.trapmf x a b c d ≤ 1) ∧
    (0 ≤ FuzzyLogicSystem.trimf x a b c ∧
      FuzzyLogicSystem.trimf x a b c ≤ 1) :=
  ⟨get_membership_bounds h, trapmf_bounds x a b c d, trimf_bounds x a b c⟩

/-- Witness for C7 at `x = 3` over the `dirtiness Low` table and the
`Fast` speed trapezoid. -/
theorem claim_C7_witness :
    (0 ≤ get_membership 3 [(0, 1), (2, 1), (4, 0), (10, 0)] ∧
      get_membership 3 [(0, 1), (2, 1), (4, 0), (10, 0)] ≤ 1) ∧
    (0 ≤ FuzzyLogicSystem.trapmf 3 45 60 90 100 ∧
      FuzzyLogicSystem.trapmf 3 45 60 90 100 ≤ 1) ∧
    (0 ≤ FuzzyLogicSystem.trimf 3 45 60 90 ∧
      FuzzyLogicSystem.trimf 3 45 60 90 ≤ 1) :=
  claim_C7_membership_clamped 3 45 60 90 100
    [(0, 1), (2, 1), (4, 0), (10, 0)] (by norm_num)

/-- Claim C9: on an empty breakpoint list `get_membership` returns
`0.0` for every input (the function is total: no runtime fault). -/
theorem claim_C9_empty_points (x : ℚ) : get_membership x [] = 0 := rfl

/-! ### Rule evaluation (C2) -/

lemma dget_cons (k k' : String) (v : ℚ) (rest : Dict) :
    dget ((k, v) :: rest) k' = if k == k' then v else dget rest k' := by
  by_cases h : k == k'
  · rw [if_pos h]
    unfold dget
    rw [List.find?_cons_of_pos _ (by simpa using h)]
    rfl
  · rw [if_neg h]
    unfold dget
    rw [List.find?_cons_of_neg _ (by simpa using h)]

lemma dget_nil (k : String) : dget [] k = 0 := rfl

lemma max_zero_of_nonneg {a : ℚ} (h : 0 ≤ a) : max 0 a = a := max_eq_right h

/-- Claim C2: for nonnegative fuzzified readings (missing labels read as
`0.0` by `dget`, never an error), `apply_rules` gives each output label
the maximum rule firing strength over the rules sharing that consequent,
each strength being the `min` of the rule's two antecedent degrees:
`Light` collects rules 1, 2, 4, 7; `Normal` collects rule 5; `Strong`
collects rules 3, 6, 8, 9. -/
theorem claim_C2_apply_rules_minmax (d q : Dict)
    (hd : ∀ p ∈ d, 0 ≤ p.2) (hq : ∀ p ∈ q, 0 ≤ p.2) :
    dget (apply_rules d q) "Light"
        = max (max (max (min (dget d "Low") (dget q "Light"))
                        (min (dget d "Low") (dget q "Medium")))
                   (min (dget d "Medium") (dget q "Light")))
              (min (dget d "High") (dget q "Light")) ∧
    dget (apply_rules d q) "Normal"
        = min (dget d "Medium") (dget q "Medium") ∧
    dget (apply_rules d q) "Strong"
        = max (max (max (min (dget d "Low") (dget q "Heavy"))
                        (min (dget d "Medium") (dget q "Heavy")))
                   (min (dget d "High") (dget q "Medium")))
              (min (dget d "High") (dget q "Heavy")) := by
  have h1 : 0 ≤ min (dget d "Low") (dget q "Light") :=
    le_min (dget_nonneg hd _) (dget_nonneg hq _)
  have h3 : 0 ≤ min (dget d "Low") (dget q "Heavy") :=
    le_min (dget_nonneg hd _) (dget_nonneg hq _)
  have h5 : 0 ≤ min (dget d "Medium") (dget q "Medium") :=
    le_min (dget_nonneg hd _) (dget_nonneg hq _)
  refine ⟨?_, ?_, ?_⟩ <;>
    simp [apply_rules, dget_cons, max_zero_of_nonneg, h1, h3, h5]

/-- Witness for C2, realizing the spec's overlapping-consequent
scenario: with `Medium` missing from the dirtiness reading and `Light`
missing from the quantity reading, the `Strong` rules fire at strengths
`3/10` (rule 3), `0` (rule 6), `7/10` (rules 8 and 9), and the `Strong`
activation is their maximum `7/10` — not a sum and not an average. -/
theorem claim_C2_witness :
    dget (apply_rules [("Low", (3 : ℚ)/10), ("High", 7/10)]
      [("Medium", 1), ("Heavy", 9/10)]) "Strong" = 7/10 := by
  have h := claim_C2_apply_rules_minmax
    [("Low", (3 : ℚ)/10), ("High", 7/10)] [("Medium", 1), ("Heavy", 9/10)]
    (by norm_num) (by norm_num)
  rw [h.2.2]
  have e1 : ("Low" == "Medium") = false := by decide
  have e2 : ("High" == "Medium") = false := by decide
  have e3 : ("Low" == "High") = false := by decide
  have e4 : ("Medium" == "Heavy") = false := by decide
  norm_num [dget_cons, dget_nil, e1, e2, e3, e4, min_def, max_def]

/-! ### Aggregation (C3, C8, C10)

`aggregate` folds the step below over the activation dict.  The
specification-side aggregation (`aggregate_all`, which is also the
shape of `main.py`'s `aggregate_outputs`) clips every label without
the `act_strength > 0` skip. -/

lemma aggregate_eq_foldl (x : ℚ) (acts : Dict)
    (mfs : String → List (ℚ × ℚ)) :
    aggregate x acts mfs
      = acts.foldl (clipStep (fun s => get_membership x (mfs s))) 0 := rfl

lemma foldl_clipStep_ge (memv : String → ℚ) :
    ∀ (l : Dict) (a : ℚ), a ≤ l.foldl (clipStep memv) a := by
  intro l
  induction l with
  | nil => intro a; simp
  | cons p rest ih =>
    intro a
    rw [List.foldl_cons]
    refine le_trans ?_ (ih (clipStep memv a p))
    unfold clipStep
    by_cases hp : p.2 > 0
    · rw [if_pos hp]; exact le_max_left _ _
    · rw [if_neg hp]

lemma foldl_clipStep_eq_full (memv : String → ℚ) :
    ∀ (l : Dict) (a : ℚ), 0 ≤ a →
      l.foldl (clipStep memv) a = l.foldl (fullStep memv) a := by
  intro l
  induction l with
  | nil => intro a _; rfl
  | cons p rest ih =>
    intro a ha
    rw [List.foldl_cons, List.foldl_cons]
    by_cases hp : p.2 > 0
    · have hstep : clipStep memv a p = fullStep memv a p := by
        unfold clipStep fullStep; rw [if_pos hp]
      rw [hstep]
      exact ih _ (le_trans ha (le_max_left _ _))
    · have h0 : min p.2 (memv p.1) ≤ a :=
        le_trans (min_le_left _ _) (le_trans (not_lt.mp hp) ha)
      have hstep : fullStep memv a p = a := max_eq_left h0
      have hstep2 : clipStep memv a p = a := by
        unfold clipStep; rw [if_neg hp]
      rw [hstep, hstep2]
      exact ih a ha

lemma foldl_clipStep_le_one (memv : String → ℚ) :
    ∀ (l : Dict) (a : ℚ), a ≤ 1 → (∀ p ∈ l, p.2 ≤ 1) →
      l.foldl (clipStep memv) a ≤ 1 := by
  intro l
  induction l with
  | nil => intro a ha _; simpa using ha
  | cons p rest ih =>
    intro a ha hl
    rw [List.foldl_cons]
    refine ih _ ?_ (fun r hr => hl r (List.mem_cons_of_mem p hr))
    unfold clipStep
    by_cases hp : p.2 > 0
    · rw [if_pos hp]
      exact max_le ha (le_trans (min_le_left _ _) (hl p (by simp)))
    · rw [if_neg hp]; exact ha

lemma foldl_clipStep_frozen (memv : String → ℚ) :
    ∀ (l : Dict), (∀ p ∈ l, p.2 = 0) →
      ∀ a : ℚ, l.foldl (clipStep memv) a = a := by
  intro l
  induction l with
  | nil => intro _ a; rfl
  | cons p rest ih =>
    intro hl a
    rw [List.foldl_cons]
    have hp : ¬p.2 > 0 := by
      rw [hl p (by simp)]; exact lt_irrefl 0
    have hstep : clipStep memv a p = a := by unfold clipStep; rw [if_neg hp]
    rw [hstep]
    exact ih (fun r hr => hl r (List.mem_cons_of_mem p hr)) a

lemma foldl_clipStep_mono (memv : String → ℚ) {A B : Dict}
    (hAB : List.Forall₂ (fun p q : String × ℚ => p.1 = q.1 ∧ p.2 ≤ q.2) A B) :
    ∀ {a b : ℚ}, a ≤ b → 0 ≤ b →
      A.foldl (clipStep memv) a ≤ B.foldl (clipStep memv) b := by
  induction hAB with
  | nil => intro a b hab _; simpa using hab
  | cons hpq hrest ih =>
    intro a b hab hb
    rw [List.foldl_cons, List.foldl_cons]
    rename_i p q _ _
    have hkey : memv p.1 = memv q.1 := by rw [hpq.1]
    by_cases hp : p.2 > 0
    · have hq : q.2 > 0 := lt_of_lt_of_le hp hpq.2
      have ha' : clipStep memv a p ≤ clipStep memv b q := by
        unfold clipStep
        rw [if_pos hp, if_pos hq, hkey]
        exact max_le_max hab (min_le_min hpq.2 (le_refl _))
      have hb' : 0 ≤ clipStep memv b q := by
        unfold clipStep
        rw [if_pos hq]
        exact le_trans hb (le_max_left _ _)
      exact ih ha' hb'
    · have ha' : clipStep memv a p = a := by unfold clipStep; rw [if_neg hp]
      rw [ha']
      by_cases hq : q.2 > 0
      · have hab' : a ≤ clipStep memv b q := by
          unfold clipStep
          rw [if_pos hq]
          exact le_trans hab (le_max_left _ _)
        have hb' : 0 ≤ clipStep memv b q := by
          unfold clipStep
          rw [if_pos hq]
          exact le_trans hb (le_max_left _ _)
        exact ih hab' hb'
      · have hb' : clipStep memv b q = b := by unfold clipStep; rw [if_neg hq]
        rw [hb']
        exact ih hab hb

lemma aggregate_nonneg (x : ℚ) (acts : Dict)
    (mfs : String → List (ℚ × ℚ)) : 0 ≤ aggregate x acts mfs := by
  rw [aggregate_eq_foldl]
  exact foldl_clipStep_ge _ acts 0

lemma aggregate_eq_all (x : ℚ) (acts : Dict)
    (mfs : String → List (ℚ × ℚ)) :
    aggregate x acts mfs
      = aggregate_all (fun s => get_membership x (mfs s)) acts := by
  rw [aggregate_eq_foldl]
  exact foldl_clipStep_eq_full _ acts 0 (le_refl 0)

/-- Claim C3: aggregation refinement.  `laundry.py`'s `aggregate`
(which skips labels with strength `<= 0`) computes exactly the
specification value `aggregate_all` — the max over ALL labels of
`min(strength, membership)` starting from `0`, so absent or zero
activation contributes `0` and never raises the max — and `main.py`'s
`aggregate_outputs` computes that same `aggregate_all` value at every
sample of `speed_range` over the activation dict
`{Fast: f, Slow: s}`. -/
theorem claim_C3_aggregation_refinement (x : ℚ) (acts : Dict)
    (mfs : String → List (ℚ × ℚ)) (f s : ℚ) (hf : 0 ≤ f) (hs : 0 ≤ s) :
    aggregate x acts mfs
        = aggregate_all (fun l => get_membership x (mfs l)) acts ∧
    FuzzyLogicSystem.aggregate_outputs f s
        = FuzzyLogicSystem.speed_range.map
            (fun t => aggregate_all (speedMem t) [("Fast", f), ("Slow", s)]) := by
  constructor
  · exact aggregate_eq_all x acts mfs
  · unfold FuzzyLogicSystem.aggregate_outputs
    refine List.map_congr_left ?_
    intro t _
    have h1 : speedMem t "Fast" = FuzzyLogicSystem.trapmf t 45 60 90 100 := rfl
    have h2 : speedMem t "Slow" = FuzzyLogicSystem.trapmf t 0 10 35 45 := rfl
    have h0 : 0 ≤ min f (FuzzyLogicSystem.trapmf t 45 60 90 100) :=
      le_min hf (trapmf_bounds t 45 60 90 100).1
    show max (min f (FuzzyLogicSystem.trapmf t 45 60 90 100))
          (min s (FuzzyLogicSystem.trapmf t 0 10 35 45))
        = aggregate_all (speedMem t) [("Fast", f), ("Slow", s)]
    unfold aggregate_all fullStep
    simp only [List.foldl_cons, List.foldl_nil, h1, h2]
    rw [max_zero_of_nonneg h0]

/-- Witness for C3 at `x = 50` with activations `{Normal: 1/2}` and the
laundry intensity tables, and `(f, s) = (1/2, 0)` on the `main.py`
side. -/
theorem claim_C3_witness :
    aggregate 50 [("Normal", (1 : ℚ)/2)] intensityMfs
        = aggregate_all (fun l => get_membership 50 (intensityMfs l))
            [("Normal", (1 : ℚ)/2)] ∧
    FuzzyLogicSystem.aggregate_outputs (1/2) 0
        = FuzzyLogicSystem.speed_range.map
            (fun t => aggregate_all (speedMem t) [("Fast", 1/2), ("Slow", 0)]) :=
  claim_C3_aggregation_refinement 50 [("Normal", (1 : ℚ)/2)] intensityMfs
    (1/2) 0 (by norm_num) (le_refl 0)

lemma aggregate_outputs_zero_zero :
    ∀ y ∈ FuzzyLogicSystem.aggregate_outputs 0 0, y = 0 := by
  intro y hy
  obtain ⟨t, _, rfl⟩ := List.mem_map.mp hy
  rw [min_eq_left (trapmf_bounds t 45 60 90 100).1,
    min_eq_left (trapmf_bounds t 0 10 35 45).1]
  simp

/-- Claim C8: with activation strengths in `[0,1]` and output
membership degrees in `[0,1]`, every aggregated sample lies in `[0,1]`,
and is `0` when every label's activation is `0` — for `laundry.py`'s
`aggregate` at any sample `x` and for every entry of `main.py`'s
`aggregate_outputs`. -/
theorem claim_C8_curve_invariants (x : ℚ) (acts : Dict)
    (mfs : String → List (ℚ × ℚ))
    (hacts : ∀ p ∈ acts, 0 ≤ p.2 ∧ p.2 ≤ 1)
    (hmfs : ∀ l, ∀ r ∈ mfs l, 0 ≤ r.2 ∧ r.2 ≤ 1)
    (f s : ℚ) (hf : 0 ≤ f ∧ f ≤ 1) (hs : 0 ≤ s ∧ s ≤ 1) :
    (0 ≤ aggregate x acts mfs ∧ aggregate x acts mfs ≤ 1) ∧
    ((∀ p ∈ acts, p.2 = 0) → aggregate x acts mfs = 0) ∧
    (∀ y ∈ FuzzyLogicSystem.aggregate_outputs f s, 0 ≤ y ∧ y ≤ 1) ∧
    (∀ y ∈ FuzzyLogicSystem.aggregate_outputs 0 0, y = 0) := by
  refine ⟨⟨aggregate_nonneg x acts mfs, ?_⟩, ?_, ?_, ?_⟩
  · rw [aggregate_eq_foldl]
    exact foldl_clipStep_le_one _ acts 0 (by norm_num)
      (fun p hp => (hacts p hp).2)
  · intro hz
    rw [aggregate_eq_foldl]
    exact foldl_clipStep_frozen _ acts hz 0
  · intro y hy
    obtain ⟨t, _, rfl⟩ := List.mem_map.mp hy
    constructor
    · exact le_trans (le_min hf.1 (trapmf_bounds t 45 60 90 100).1)
        (le_max_left _ _)
    · exact max_le (le_trans (min_le_left _ _) hf.2)
        (le_trans (min_le_left _ _) hs.2)
  · exact aggregate_outputs_zero_zero

/-- Witness for C8 at `x = 50`, activations `{Normal: 1/2}`, the
laundry intensity tables, and `(f, s) = (1/2, 1)`. -/
theorem claim_C8_witness :
    (0 ≤ aggregate 50 [("Normal", (1 : ℚ)/2)] intensityMfs ∧
      aggregate 50 [("Normal", (1 : ℚ)/2)] intensityMfs ≤ 1) ∧
    ((∀ p ∈ [("Normal", (1 : ℚ)/2)], p.2 = 0) →
      aggregate 50 [("Normal", (1 : ℚ)/2)] intensityMfs = 0) ∧
    (∀ y ∈ FuzzyLogicSystem.aggregate_outputs (1/2) 1, 0 ≤ y ∧ y ≤ 1) ∧
    (∀ y ∈ FuzzyLogicSystem.aggregate_outputs 0 0, y = 0) :=
  claim_C8_curve_invariants 50 [("Normal", (1 : ℚ)/2)] intensityMfs
    (by norm_num)
    (by
      intro l r hr
      have : ∀ r ∈ intensityMfs l, 0 ≤ r.2 ∧ r.2 ≤ 1 := by
        unfold intensityMfs
        split <;> norm_num
      exact this r hr)
    (1/2) 1 (by norm_num) (by norm_num)

/-- Claim C10: `laundry.py`'s `aggregate` is monotone in the activation
strengths: if `A` and `B` range over the same labels in the same order
with values in `[0,1]` and `A[label] <= B[label]` pointwise, then the
aggregated sample under `A` is at most the one under `B`. -/
theorem claim_C10_aggregate_monotone (x : ℚ)
    (mfs : String → List (ℚ × ℚ)) (A B : Dict)
    (hAB : List.Forall₂ (fun p q : String × ℚ => p.1 = q.1 ∧ p.2 ≤ q.2) A B)
    (hA : ∀ p ∈ A, 0 ≤ p.2 ∧ p.2 ≤ 1)
    (hB : ∀ p ∈ B, 0 ≤ p.2 ∧ p.2 ≤ 1) :
    aggregate x A mfs ≤ aggregate x B mfs := by
  rw [aggregate_eq_foldl, aggregate_eq_foldl]
  exact foldl_clipStep_mono _ hAB (le_refl 0) (le_refl 0)

/-! ### Defuzzification (C4, C5) -/

lemma x_samples_bounds {n : ℕ} (hn : 2 ≤ n) :
    ∀ t ∈ x_samples n, 0 ≤ t ∧ t ≤ 100 := by
  intro t ht
  unfold x_samples at ht
  obtain ⟨i, hi, rfl⟩ := List.mem_map.mp ht
  rw [List.mem_range] at hi
  have hc : 0 < (n : ℚ) - 1 := by
    have : (2 : ℚ) ≤ (n : ℚ) := by exact_mod_cast hn
    linarith
  have hi' : (i : ℚ) ≤ (n : ℚ) - 1 := by
    have : (i : ℚ) + 1 ≤ (n : ℚ) := by exact_mod_cast hi
    linarith
  constructor
  · have : 0 ≤ (i : ℚ) * (100 - 0) := by positivity
    simpa using div_nonneg this (le_of_lt hc)
  · rw [zero_add, div_le_iff hc]
    nlinarith [hi', hc]

lemma mem_agg_points {acts : Dict} {mfs : String → List (ℚ × ℚ)} {n : ℕ}
    {p : ℚ × ℚ} (hp : p ∈ agg_points acts mfs n) :
    p.1 ∈ x_samples n ∧ p.2 = aggregate p.1 acts mfs := by
  obtain ⟨t, ht, rfl⟩ := List.mem_map.mp hp
  exact ⟨ht, rfl⟩

lemma speed_range_bounds : ∀ t ∈ FuzzyLogicSystem.speed_range,
    0 ≤ t ∧ t ≤ 100 := by
  intro t ht
  unfold FuzzyLogicSystem.speed_range at ht
  obtain ⟨i, hi, rfl⟩ := List.mem_map.mp ht
  rw [List.mem_range] at hi
  constructor
  · positivity
  · exact_mod_cast Nat.lt_succ_iff.mp hi

lemma aggregate_outputs_nonneg {f s : ℚ} (hf : 0 ≤ f) (hs : 0 ≤ s) :
    ∀ y ∈ FuzzyLogicSystem.aggregate_outputs f s, 0 ≤ y := by
  intro y hy
  obtain ⟨t, _, rfl⟩ := List.mem_map.mp hy
  exact le_trans (le_min hf (trapmf_bounds t 45 60 90 100).1) (le_max_left _ _)

lemma aggregate_outputs_length (f s : ℚ) :
    (FuzzyLogicSystem.aggregate_outputs f s).length
      = FuzzyLogicSystem.speed_range.length := by
  simp [FuzzyLogicSystem.aggregate_outputs]

/-- Claim C4: whenever the aggregated samples have positive sum, both
variants' `defuzzify` return exactly the discretized centroid
`Σ(x_i * y_i) / Σ(y_i)` over their evenly spaced samples of `[0,100]`,
and the returned value lies within `[0,100]`. -/
theorem claim_C4_centroid_in_domain (acts : Dict)
    (mfs : String → List (ℚ × ℚ)) (n : ℕ) (hn : 2 ≤ n)
    (hden : 0 < denom_sum acts mfs n)
    (f s : ℚ) (hf : 0 ≤ f) (hs : 0 ≤ s)
    (hsum : 0 < (FuzzyLogicSystem.aggregate_outputs f s).sum) :
    (defuzzify acts mfs n).1 = num_sum acts mfs n / denom_sum acts mfs n ∧
    (0 ≤ (defuzzify acts mfs n).1 ∧ (defuzzify acts mfs n).1 ≤ 100) ∧
    FuzzyLogicSystem.defuzzify (FuzzyLogicSystem.aggregate_outputs f s)
        = ((FuzzyLogicSystem.speed_range.zip
              (FuzzyLogicSystem.aggregate_outputs f s)).map
            (fun p => p.1 * p.2)).sum
          / (FuzzyLogicSystem.aggregate_outputs f s).sum ∧
    (0 ≤ FuzzyLogicSystem.defuzzify (FuzzyLogicSystem.aggregate_outputs f s) ∧
      FuzzyLogicSystem.defuzzify (FuzzyLogicSystem.aggregate_outputs f s)
        ≤ 100) := by
  have heq : (defuzzify acts mfs n).1
      = num_sum acts mfs n / denom_sum acts mfs n := by
    unfold defuzzify
    rw [if_neg (ne_of_gt hden)]
  have hynn : ∀ p ∈ agg_points acts mfs n, (0 : ℚ) ≤ p.2 := by
    intro p hp
    rw [(mem_agg_points hp).2]
    exact aggregate_nonneg _ acts mfs
  have hnum : 0 ≤ num_sum acts mfs n := by
    unfold num_sum
    refine List.sum_nonneg ?_
    intro z hz
    obtain ⟨p, hp, rfl⟩ := List.mem_map.mp hz
    exact mul_nonneg (x_samples_bounds hn p.1 (mem_agg_points hp).1).1
      (hynn p hp)
  have hle : num_sum acts mfs n ≤ 100 * denom_sum acts mfs n := by
    unfold num_sum denom_sum
    calc ((agg_points acts mfs n).map (fun p => p.1 * p.2)).sum
        ≤ ((agg_points acts mfs n).map (fun p => 100 * p.2)).sum := by
          refine List.sum_le_sum ?_
          intro p hp
          exact mul_le_mul_of_nonneg_right
            (x_samples_bounds hn p.1 (mem_agg_points hp).1).2 (hynn p hp)
      _ = 100 * ((agg_points acts mfs n).map Prod.snd).sum :=
          List.sum_map_mul_left _ _ _
  have heqm : FuzzyLogicSystem.defuzzify (FuzzyLogicSystem.aggregate_outputs f s)
      = ((FuzzyLogicSystem.speed_range.zip
            (FuzzyLogicSystem.aggregate_outputs f s)).map
          (fun p => p.1 * p.2)).sum
        / (FuzzyLogicSystem.aggregate_outputs f s).sum := by
    unfold FuzzyLogicSystem.defuzzify
    rw [if_neg (ne_of_gt hsum)]
  have hmnn : 0 ≤ ((FuzzyLogicSystem.speed_range.zip
      (FuzzyLogicSystem.aggregate_outputs f s)).map
        (fun p => p.1 * p.2)).sum := by
    refine List.sum_nonneg ?_
    intro z hz
    obtain ⟨p, hp, rfl⟩ := List.mem_map.mp hz
    obtain ⟨a, b⟩ := p
    obtain ⟨ha, hb⟩ := List.of_mem_zip hp
    exact mul_nonneg (speed_range_bounds a ha).1
      (aggregate_outputs_nonneg hf hs b hb)
  have hmle : ((FuzzyLogicSystem.speed_range.zip
      (FuzzyLogicSystem.aggregate_outputs f s)).map
        (fun p => p.1 * p.2)).sum
      ≤ 100 * (FuzzyLogicSystem.aggregate_outputs f s).sum := by
    calc ((FuzzyLogicSystem.speed_range.zip
          (FuzzyLogicSystem.aggregate_outputs f s)).map
            (fun p => p.1 * p.2)).sum
        ≤ ((FuzzyLogicSystem.speed_range.zip
            (FuzzyLogicSystem.aggregate_outputs f s)).map
              (fun p => 100 * p.2)).sum := by
          refine List.sum_le_sum ?_
          intro p hp
          obtain ⟨a, b⟩ := p
          obtain ⟨ha, hb⟩ := List.of_mem_zip hp
          exact mul_le_mul_of_nonneg_right (speed_range_bounds a ha).2
            (aggregate_outputs_nonneg hf hs b hb)
      _ = 100 * ((FuzzyLogicSystem.speed_range.zip
            (FuzzyLogicSystem.aggregate_outputs f s)).map Prod.snd).sum :=
          List.sum_map_mul_left _ _ _
      _ = 100 * (FuzzyLogicSystem.aggregate_outputs f s).sum := by
          rw [List.map_snd_zip _ _ (le_of_eq (aggregate_outputs_length f s))]
  refine ⟨heq, ⟨?_, ?_⟩, heqm, ?_, ?_⟩
  · rw [heq]; exact div_nonneg hnum (le_of_lt hden)
  · rw [heq, div_le_iff hden]; linarith [hle]
  · rw [heqm]; exact div_nonneg hmnn (le_of_lt hsum)
  · rw [heqm, div_le_iff hsum]; linarith [hmle]

/-- Witness for C4 with activations `{Light: 1}`, `n = 2` samples on
the laundry side and `(f, s) = (1, 0)` on the `main.py` side. -/
theorem claim_C4_witness :
    0 < denom_sum [("Light", (1 : ℚ))] intensityMfs 2 ∧
    0 ≤ (defuzzify [("Light", (1 : ℚ))] intensityMfs 2).1 ∧
    (defuzzify [("Light", (1 : ℚ))] intensityMfs 2).1 ≤ 100 ∧
    0 ≤ FuzzyLogicSystem.defuzzify (FuzzyLogicSystem.aggregate_outputs 1 0) ∧
    FuzzyLogicSystem.defuzzify (FuzzyLogicSystem.aggregate_outputs 1 0)
      ≤ 100 := by
  have hL : intensityMfs "Light" = [(0, 1), (20, 1), (40, 0), (100, 0)] := rfl
  have hden : 0 < denom_sum [("Light", (1 : ℚ))] intensityMfs 2 := by
    norm_num [denom_sum, agg_points, x_samples, List.range_succ, aggregate,
      hL, get_membership, scanSegments, segEval, List.getLast]
  have h70 : (70 : ℚ) ∈ FuzzyLogicSystem.speed_range := by
    unfold FuzzyLogicSystem.speed_range
    refine List.mem_map.mpr ⟨70, ?_, by norm_num⟩
    simp
  have hel : max (min (1 : ℚ) (FuzzyLogicSystem.trapmf 70 45 60 90 100))
      (min 0 (FuzzyLogicSystem.trapmf 70 0 10 35 45))
      ∈ FuzzyLogicSystem.aggregate_outputs 1 0 :=
    List.mem_map_of_mem _ h70
  have hval : max (min (1 : ℚ) (FuzzyLogicSystem.trapmf 70 45 60 90 100))
      (min 0 (FuzzyLogicSystem.trapmf 70 0 10 35 45)) = 1 := by
    norm_num [FuzzyLogicSystem.trapmf]
  have hsum : 0 < (FuzzyLogicSystem.aggregate_outputs 1 0).sum := by
    have := List.single_le_sum
      (@aggregate_outputs_nonneg 1 0 (by norm_num) (le_refl 0)) _ hel
    rw [hval] at this
    linarith
  have h := claim_C4_centroid_in_domain [("Light", (1 : ℚ))] intensityMfs 2
    (le_refl 2) hden 1 0 (by norm_num) (le_refl 0) hsum
  exact ⟨hden, h.2.1.1, h.2.1.2, h.2.2.2.1, h.2.2.2.2⟩

/-- Claim C5: when every rule antecedent reads degree `0`, the
activation set is all-zero, the aggregated curve is all-zero at every
sample, and the fallback crisp outputs are exactly `0.0` for
`laundry.py`'s `defuzzify` and the domain midpoint `50` for `main.py`'s
`FuzzyLogicSystem.defuzzify`. -/
theorem claim_C5_zero_activation_fallback (d q : Dict)
    (mfs : String → List (ℚ × ℚ)) (n : ℕ)
    (hd1 : dget d "Low" = 0) (hd2 : dget d "Medium" = 0)
    (hd3 : dget d "High" = 0)
    (hq1 : dget q "Light" = 0) (hq2 : dget q "Medium" = 0)
    (hq3 : dget q "Heavy" = 0)
    (m : FuzzyLogicSystem.Memberships)
    (hm : m.cool = 0 ∧ m.warm = 0 ∧ m.sunny = 0 ∧ m.cloudy = 0) :
    (∀ p ∈ apply_rules d q, p.2 = 0) ∧
    (∀ x, aggregate x (apply_rules d q) mfs = 0) ∧
    (defuzzify (apply_rules d q) mfs n).1 = 0 ∧
    FuzzyLogicSystem.apply_rules m = (0, 0) ∧
    (∀ y ∈ FuzzyLogicSystem.aggregate_outputs 0 0, y = 0) ∧
    FuzzyLogicSystem.defuzzify (FuzzyLogicSystem.aggregate_outputs 0 0)
      = 50 := by
  have hall : apply_rules d q = [("Light", 0), ("Normal", 0), ("Strong", 0)] := by
    simp [apply_rules, hd1, hd2, hd3, hq1, hq2, hq3]
  have hz : ∀ p ∈ apply_rules d q, p.2 = (0 : ℚ) := by
    rw [hall]
    intro p hp
    simp only [List.mem_cons, List.not_mem_nil, or_false] at hp
    rcases hp with h | h | h <;> rw [h]
  have hagg : ∀ x, aggregate x (apply_rules d q) mfs = 0 := by
    intro x
    rw [aggregate_eq_foldl]
    exact foldl_clipStep_frozen _ _ hz 0
  have hden : denom_sum (apply_rules d q) mfs n = 0 := by
    unfold denom_sum
    refine List.sum_eq_zero ?_
    intro z hz'
    obtain ⟨p, hp, rfl⟩ := List.mem_map.mp hz'
    rw [(mem_agg_points hp).2]
    exact hagg p.1
  have hsum0 : (FuzzyLogicSystem.aggregate_outputs 0 0).sum = 0 :=
    List.sum_eq_zero aggregate_outputs_zero_zero
  refine ⟨hz, hagg, ?_, ?_, aggregate_outputs_zero_zero, ?_⟩
  · unfold defuzzify
    rw [if_pos hden]
  · unfold FuzzyLogicSystem.apply_rules
    rw [hm.1, hm.2.1, hm.2.2.1, hm.2.2.2]
    simp
  · unfold FuzzyLogicSystem.defuzzify
    rw [if_pos hsum0]

/-- Witness for C5 with empty readings (every lookup defaults to `0`),
the laundry intensity tables at `n = 101`, and an all-zero
`Memberships` record. -/
theorem claim_C5_witness :
    (defuzzify (apply_rules [] []) intensityMfs 101).1 = 0 ∧
    FuzzyLogicSystem.defuzzify (FuzzyLogicSystem.aggregate_outputs 0 0)
      = 50 := by
  have h := claim_C5_zero_activation_fallback [] [] intensityMfs 101
    rfl rfl rfl rfl rfl rfl ⟨0, 0, 0, 0⟩ ⟨rfl, rfl, rfl, rfl⟩
  exact ⟨h.2.2.1, h.2.2.2.2.2⟩

/-! ### Rule-order invariance (C6) -/

lemma foldl_max_perm {α : Type} (f : α → ℚ) {l₁ l₂ : List α}
    (h : l₁.Perm l₂) :
    ∀ a : ℚ, l₁.foldl (fun acc r => max acc (f r)) a
      = l₂.foldl (fun acc r => max acc (f r)) a := by
  induction h with
  | nil => intro a; rfl
  | cons x _ ih =>
    intro a
    rw [List.foldl_cons, List.foldl_cons]
    exact ih _
  | swap x y l =>
    intro a
    rw [List.foldl_cons, List.foldl_cons, List.foldl_cons, List.foldl_cons,
      sup_right_comm a (f y) (f x)]
  | trans _ _ ih1 ih2 =>
    intro a
    rw [ih1 a, ih2 a]

lemma eval_rules_perm (d q : Dict) {l₁ l₂ : List Rule} (h : l₁.Perm l₂)
    (label : String) :
    eval_rules d q l₁ label = eval_rules d q l₂ label := by
  unfold eval_rules
  exact foldl_max_perm _ (h.filter _) 0

lemma eval_rules_light (d q : Dict) :
    eval_rules d q laundry_rules "Light" = dget (apply_rules d q) "Light" :=
  rfl

lemma eval_rules_normal (d q : Dict) :
    eval_rules d q laundry_rules "Normal" = dget (apply_rules d q) "Normal" :=
  rfl

lemma eval_rules_strong (d q : Dict) :
    eval_rules d q laundry_rules "Strong" = dget (apply_rules d q) "Strong" :=
  rfl

lemma eval_rules_other (d q : Dict) (label : String)
    (h1 : label ≠ "Light") (h2 : label ≠ "Normal") (h3 : label ≠ "Strong") :
    eval_rules d q laundry_rules label = 0 := by
  unfold eval_rules
  have hfil : laundry_rules.filter (fun r => r.out == label) = [] := by
    rw [List.filter_eq_nil]
    intro r hr
    have houts : r.out = "Light" ∨ r.out = "Normal" ∨ r.out = "Strong" := by
      unfold laundry_rules at hr
      simp only [List.mem_cons, List.not_mem_nil, or_false] at hr
      rcases hr with h | h | h | h | h | h | h | h | h <;> rw [h] <;> simp
    simp only [beq_eq_false_iff_ne, ne_eq, beq_iff_eq]
    rcases houts with h | h | h <;> rw [h] <;> intro hc <;>
      [exact h1 hc.symm; exact h2 hc.symm; exact h3 hc.symm]
  rw [hfil]
  rfl

lemma dget_apply_rules_other (d q : Dict) (label : String)
    (h1 : label ≠ "Light") (h2 : label ≠ "Normal") (h3 : label ≠ "Strong") :
    dget (apply_rules d q) label = 0 := by
  have e1 : ("Light" == label) = false :=
    beq_eq_false_iff_ne.mpr (Ne.symm h1)
  have e2 : ("Normal" == label) = false :=
    beq_eq_false_iff_ne.mpr (Ne.symm h2)
  have e3 : ("Strong" == label) = false :=
    beq_eq_false_iff_ne.mpr (Ne.symm h3)
  show dget [("Light", _), ("Normal", _), ("Strong", _)] label = 0
  rw [dget_cons, dget_cons, dget_cons, e1, e2, e3]
  rfl

/-- Claim C6: rule-evaluation order is irrelevant.  Any permutation of
the nine `laundry.py` rules produces, for every output label, exactly
the activation computed by the hardcoded `apply_rules` sequence; any
permutation of `main.py`'s two rules reproduces its `Fast` and `Slow`
activations (for nonnegative memberships). -/
theorem claim_C6_rule_order_invariance (d q : Dict)
    (rulesL : List Rule) (hL : rulesL.Perm laundry_rules)
    (m : FuzzyLogicSystem.Memberships)
    (hm : 0 ≤ m.cool ∧ 0 ≤ m.warm ∧ 0 ≤ m.sunny ∧ 0 ≤ m.cloudy)
    (rulesM : List Rule) (hM : rulesM.Perm main_rules) :
    (∀ label, eval_rules d q rulesL label = dget (apply_rules d q) label) ∧
    eval_rules (memDict m) (memDict m) rulesM "Fast"
      = (FuzzyLogicSystem.apply_rules m).1 ∧
    eval_rules (memDict m) (memDict m) rulesM "Slow"
      = (FuzzyLogicSystem.apply_rules m).2 := by
  refine ⟨?_, ?_, ?_⟩
  · intro label
    rw [eval_rules_perm d q hL label]
    by_cases h1 : label = "Light"
    · rw [h1]; exact eval_rules_light d q
    by_cases h2 : label = "Normal"
    · rw [h2]; exact eval_rules_normal d q
    by_cases h3 : label = "Strong"
    · rw [h3]; exact eval_rules_strong d q
    rw [eval_rules_other d q label h1 h2 h3,
      dget_apply_rules_other d q label h1 h2 h3]
  · rw [eval_rules_perm (memDict m) (memDict m) hM "Fast"]
    show max 0 (min m.sunny m.warm) = min m.sunny m.warm
    exact max_zero_of_nonneg (le_min hm.2.2.1 hm.2.1)
  · rw [eval_rules_perm (memDict m) (memDict m) hM "Slow"]
    show max 0 (min m.cloudy m.cool) = min m.cloudy m.cool
    exact max_zero_of_nonneg (le_min hm.2.2.2 hm.1)

/-- Witness for C6: the reversed rule lists on concrete readings
`{High: 1}` and `{Heavy: 1}` and memberships `(1, 1, 1, 1)`. -/
theorem claim_C6_witness :
    eval_rules [("High", (1 : ℚ))] [("Heavy", (1 : ℚ))]
        laundry_rules.reverse "Strong"
      = dget (apply_rules [("High", (1 : ℚ))] [("Heavy", (1 : ℚ))])
          "Strong" ∧
    eval_rules (memDict ⟨1, 1, 1, 1⟩) (memDict ⟨1, 1, 1, 1⟩)
        main_rules.reverse "Fast"
      = (FuzzyLogicSystem.apply_rules ⟨1, 1, 1, 1⟩).1 := by
  have h := claim_C6_rule_order_invariance
    [("High", (1 : ℚ))] [("Heavy", (1 : ℚ))]
    laundry_rules.reverse (List.reverse_perm laundry_rules)
    ⟨1, 1, 1, 1⟩ (by norm_num)
    main_rules.reverse (List.reverse_perm main_rules)
  exact ⟨h.1 "Strong", h.2.1⟩

/-! ### Breakpoint interpolation (C1)

`ltX` is strict ordering of breakpoints by abscissa; `laundry.py`'s
tables all satisfy it. -/

lemma chain_head_le :
    ∀ (l : List (ℚ × ℚ)) (p : ℚ × ℚ) (l' : List (ℚ × ℚ)) (b : ℚ × ℚ),
      List.Chain' ltX (l ++ p :: l') → (l ++ p :: l').head? = some b →
      b.1 ≤ p.1 := by
  intro l
  induction l with
  | nil =>
    intro p l' b _ hb
    simp only [List.nil_append, List.head?_cons, Option.some.injEq] at hb
    rw [← hb]
  | cons a t ih =>
    intro p l' b hc hb
    rw [List.cons_append, List.head?_cons, Option.some.injEq] at hb
    obtain ⟨c, rest, hcr⟩ : ∃ c rest, t ++ p :: l' = c :: rest := by
      cases t with
      | nil => exact ⟨p, l', rfl⟩
      | cons u v => exact ⟨u, v ++ p :: l', by simp⟩
    rw [List.cons_append] at hc
    have hc' := (List.chain'_cons'.mp hc).2
    have hrel := (List.chain'_cons'.mp hc).1 c (by rw [hcr]; rfl)
    have hcp : c.1 ≤ p.1 := ih p l' c hc' (by rw [hcr]; rfl)
    rw [← hb]
    exact le_trans (le_of_lt hrel) hcp

lemma chain_last_ge :
    ∀ (l' : List (ℚ × ℚ)) (p : ℚ × ℚ),
      List.Chain' ltX (p :: l') →
      p.1 ≤ ((p :: l').getLast (List.cons_ne_nil p l')).1 := by
  intro l'
  induction l' with
  | nil => intro p _; rfl
  | cons c t ih =>
    intro p hc
    have h1 : ltX p c := (List.chain'_cons.mp hc).1
    have h2 := ih c (List.chain'_cons.mp hc).2
    rw [List.getLast_cons (List.cons_ne_nil c t)]
    exact le_trans (le_of_lt h1) h2

lemma scanSegments_append :
    ∀ (l1 : List (ℚ × ℚ)) (p q : ℚ × ℚ) (l2 : List (ℚ × ℚ)) (x : ℚ),
      List.Chain' ltX (l1 ++ p :: q :: l2) → p.1 < x → x ≤ q.1 →
      scanSegments x (l1 ++ p :: q :: l2) = segEval x p q := by
  intro l1
  induction l1 with
  | nil =>
    intro p q l2 x _ hpx hxq
    rw [List.nil_append, scanSegments,
      if_pos ⟨le_of_lt hpx, hxq⟩]
  | cons a t ih =>
    intro p q l2 x hc hpx hxq
    obtain ⟨b, rest, hbr⟩ : ∃ b rest, t ++ p :: q :: l2 = b :: rest := by
      cases t with
      | nil => exact ⟨p, q :: l2, rfl⟩
      | cons u v => exact ⟨u, v ++ p :: q :: l2, by simp⟩
    rw [List.cons_append] at hc ⊢
    have hc' := (List.chain'_cons'.mp hc).2
    have hbp : b.1 ≤ p.1 :=
      chain_head_le t p (q :: l2) b hc' (by rw [hbr]; rfl)
    rw [hbr, scanSegments]
    have hcond : ¬(a.1 ≤ x ∧ x ≤ b.1) := by
      rintro ⟨-, hxb⟩
      exact absurd (lt_of_lt_of_le hpx (le_trans hxb hbp)) (lt_irrefl _)
    rw [if_neg hcond, ← hbr]
    exact ih p q l2 x hc' hpx hxq

lemma get_membership_head (hd : ℚ × ℚ) (rest : List (ℚ × ℚ)) (x : ℚ)
    (hx : x ≤ hd.1) : get_membership x (hd :: rest) = hd.2 := by
  rw [get_membership, if_pos hx]

lemma get_membership_last (pts : List (ℚ × ℚ)) (x : ℚ)
    (hc : List.Chain' ltX pts) (hne : pts ≠ [])
    (hx : (pts.getLast hne).1 ≤ x) :
    get_membership x pts = (pts.getLast hne).2 := by
  cases pts with
  | nil => exact absurd rfl hne
  | cons hd rest =>
    cases rest with
    | nil =>
      rw [get_membership]
      by_cases h1 : x ≤ hd.1
      · rw [if_pos h1]; rfl
      · rw [if_neg h1, if_pos hx]
    | cons c rest' =>
      have hlast : (hd :: c :: rest').getLast (List.cons_ne_nil hd (c :: rest'))
          = (c :: rest').getLast (List.cons_ne_nil c rest') :=
        List.getLast_cons (List.cons_ne_nil c rest')
      have hcc : hd.1 < c.1 := (List.chain'_cons.mp hc).1
      have hcl : c.1 ≤ ((c :: rest').getLast (List.cons_ne_nil c rest')).1 :=
        chain_last_ge rest' c (List.chain'_cons.mp hc).2
      have h1 : ¬x ≤ hd.1 := by
        rw [hlast] at hx
        intro hcon
        exact absurd (lt_of_lt_of_le hcc (le_trans hcl (le_trans hx hcon)))
          (lt_irrefl _)
      rw [get_membership, if_neg h1, if_pos hx]

lemma getLast?_append_cons (l1 : List (ℚ × ℚ)) (p : ℚ × ℚ)
    (l2 : List (ℚ × ℚ)) :
    (l1 ++ p :: l2).getLast? = (p :: l2).getLast? := by
  induction l1 with
  | nil => rfl
  | cons a t ih =>
    obtain ⟨b, rest, hbr⟩ : ∃ b rest, t ++ p :: l2 = b :: rest := by
      cases t with
      | nil => exact ⟨p, l2, rfl⟩
      | cons u v => exact ⟨u, v ++ p :: l2, by simp⟩
    rw [List.cons_append, hbr, List.getLast?_cons_cons, ← hbr, ih]

lemma get_membership_bracket (l1 : List (ℚ × ℚ)) (p q : ℚ × ℚ)
    (l2 : List (ℚ × ℚ)) (x : ℚ)
    (hc : List.Chain' ltX (l1 ++ p :: q :: l2)) (hpx : p.1 < x)
    (hxq : x ≤ q.1) :
    get_membership x (l1 ++ p :: q :: l2) = segEval x p q := by
  obtain ⟨hd, rest, hhr⟩ : ∃ hd rest, l1 ++ p :: q :: l2 = hd :: rest := by
    cases l1 with
    | nil => exact ⟨p, q :: l2, rfl⟩
    | cons u v => exact ⟨u, v ++ p :: q :: l2, by simp⟩
  have hhd : hd.1 ≤ p.1 :=
    chain_head_le l1 p (q :: l2) hd hc (by rw [hhr]; rfl)
  have h1 : ¬x ≤ hd.1 := by
    intro hcon
    exact absurd hpx (not_lt.mpr (le_trans hcon hhd))
  have hq2 : List.Chain' ltX (q :: l2) := by
    have hpq2 : List.Chain' ltX (p :: q :: l2) := hc.right_of_append
    exact (List.chain'_cons'.mp hpq2).2
  have hgl : (hd :: rest).getLast (List.cons_ne_nil hd rest)
      = (q :: l2).getLast (List.cons_ne_nil q l2) := by
    have e1 : (hd :: rest).getLast?
        = some ((hd :: rest).getLast (List.cons_ne_nil hd rest)) :=
      List.getLast?_eq_getLast _ _
    have e3 : (q :: l2).getLast?
        = some ((q :: l2).getLast (List.cons_ne_nil q l2)) :=
      List.getLast?_eq_getLast _ _
    have e2 : (hd :: rest).getLast? = (q :: l2).getLast? := by
      rw [← hhr, getLast?_append_cons l1 p (q :: l2),
        List.getLast?_cons_cons]
    rw [e1, e3] at e2
    exact Option.some_injective _ e2
  by_cases h2 : ((hd :: rest).getLast (List.cons_ne_nil hd rest)).1 ≤ x
  · have hql : q.1 ≤ ((q :: l2).getLast (List.cons_ne_nil q l2)).1 :=
      chain_last_ge l2 q hq2
    have hxq' : x = q.1 := by
      rw [hgl] at h2
      exact le_antisymm hxq (le_trans hql h2)
    cases l2 with
    | nil =>
      rw [hhr, get_membership, if_neg h1, if_pos h2, hgl]
      have hxp : x ≠ p.1 := ne_of_gt hpx
      show q.2 = segEval x p q
      rw [segEval, if_neg hxp, if_pos hxq']
    | cons c l2' =>
      exfalso
      have hqc : q.1 < c.1 := (List.chain'_cons.mp hq2).1
      have hcl : c.1 ≤ ((c :: l2').getLast (List.cons_ne_nil c l2')).1 :=
        chain_last_ge l2' c (List.chain'_cons.mp hq2).2
      have hstep : (q :: c :: l2').getLast (List.cons_ne_nil q (c :: l2'))
          = (c :: l2').getLast (List.cons_ne_nil c l2') :=
        List.getLast_cons (List.cons_ne_nil c l2')
      rw [hgl, hstep] at h2
      rw [hxq'] at h2
      linarith [h2, hqc, hcl]
  · rw [hhr, get_membership, if_neg h1, if_neg h2, ← hhr]
    exact scanSegments_append l1 p q l2 x hc hpx hxq

/-- Witness for C10 at `x = 10` with `A = {Light: 1/4}`,
`B = {Light: 1/2}`. -/
theorem claim_C10_witness :
    aggregate 10 [("Light", (1 : ℚ)/4)] intensityMfs
      ≤ aggregate 10 [("Light", (1 : ℚ)/2)] intensityMfs :=
  claim_C10_aggregate_monotone 10 intensityMfs
    [("Light", (1 : ℚ)/4)] [("Light", (1 : ℚ)/2)]
    (by constructor <;> norm_num)
    (by norm_num) (by norm_num)

/-- Counterexample to C1 as stated: for merely non-decreasing
breakpoints duplicates are allowed, and on
`[(0,0), (5,0), (5,1), (10,1)]` at `x = 5` the code returns `0` — the
degree of the first breakpoint with abscissa `5` — although `(5,1)` is
also a breakpoint, so "exactly the table degree when x equals a
breakpoint's x" fails. -/
theorem claim_C1_counterexample :
    List.Chain' (fun p q : ℚ × ℚ => p.1 ≤ q.1)
      [((0 : ℚ), (0 : ℚ)), (5, 0), (5, 1), (10, 1)] ∧
    ((5 : ℚ), (1 : ℚ)) ∈ [((0 : ℚ), (0 : ℚ)), (5, 0), (5, 1), (10, 1)] ∧
    get_membership 5 [((0 : ℚ), (0 : ℚ)), (5, 0), (5, 1), (10, 1)] = 0 ∧
    (0 : ℚ) ≠ 1 := by
  refine ⟨?_, ?_, ?_, by norm_num⟩
  · norm_num [List.chain'_cons, List.chain'_singleton]
  · simp
  · norm_num [get_membership, scanSegments, segEval, List.getLast]

/-- Claim C1 (amended to breakpoint lists with strictly increasing
x-values, which rules out the duplicate-x counterexample):
`get_membership` left-clamps at or before the first breakpoint,
right-clamps at or after the last, returns exactly the table degree at
every breakpoint abscissa, and linearly interpolates
`y1 + (y2 - y1) * (x - x1) / (x2 - x1)` on the bracketing pair (which
also covers the flat segment `y1 = y2`, where the formula degenerates
to `y1`; vertical segments `x1 = x2` cannot occur). -/
theorem claim_C1_amended_interpolation (pts : List (ℚ × ℚ)) (x : ℚ)
    (hs : List.Chain' ltX pts) (hne : pts ≠ []) :
    (x ≤ (pts.head hne).1 → get_membership x pts = (pts.head hne).2) ∧
    ((pts.getLast hne).1 ≤ x → get_membership x pts = (pts.getLast hne).2) ∧
    (∀ p ∈ pts, x = p.1 → get_membership x pts = p.2) ∧
    (∀ l1 l2 (p q : ℚ × ℚ), pts = l1 ++ p :: q :: l2 → p.1 < x → x < q.1 →
      get_membership x pts
        = p.2 + (q.2 - p.2) * (x - p.1) / (q.1 - p.1)) := by
  refine ⟨?_, ?_, ?_, ?_⟩
  · intro hx
    cases pts with
    | nil => exact absurd rfl hne
    | cons hd rest => exact get_membership_head hd rest x hx
  · intro hx
    exact get_membership_last pts x hs hne hx
  · intro p hp hxp
    obtain ⟨l1, l2, rfl⟩ := List.append_of_mem hp
    rcases l1.eq_nil_or_concat' with h0 | ⟨t, prev, rfl⟩
    · subst h0
      rw [List.nil_append]
      exact get_membership_head p l2 x (le_of_eq hxp)
    · have hre : (t ++ [prev]) ++ p :: l2 = t ++ prev :: p :: l2 := by simp
      rw [hre] at hs ⊢
      have hprev : prev.1 < p.1 := by
        have h3 : List.Chain' ltX (prev :: p :: l2) := hs.right_of_append
        exact (List.chain'_cons.mp h3).1
      rw [get_membership_bracket t prev p l2 x hs
        (by rw [hxp]; exact hprev) (le_of_eq hxp)]
      have hxprev : x ≠ prev.1 := by rw [hxp]; exact ne_of_gt hprev
      rw [segEval, if_neg hxprev, if_pos hxp]
  · intro l1 l2 p q hpts hpx hxq
    rw [hpts] at hs ⊢
    rw [get_membership_bracket l1 p q l2 x hs hpx (le_of_lt hxq)]
    exact segEval_interp hpx hxq

/-- Witness for the amended C1 at `x = 3` over the `dirtiness Low`
table `[(0,1), (2,1), (4,0), (10,0)]`: the bracketing pair is
`(2,1), (4,0)` and the interpolation formula applies. -/
theorem claim_C1_witness :
    get_membership 3 [((0 : ℚ), (1 : ℚ)), (2, 1), (4, 0), (10, 0)]
      = 1 + (0 - 1) * (3 - 2) / (4 - 2) := by
  have hc : List.Chain' ltX [((0 : ℚ), (1 : ℚ)), (2, 1), (4, 0), (10, 0)] := by
    norm_num [List.chain'_cons, List.chain'_singleton, ltX]
  have h := (claim_C1_amended_interpolation
    [((0 : ℚ), (1 : ℚ)), (2, 1), (4, 0), (10, 0)] 3 hc (by simp)).2.2.2
  exact h [((0 : ℚ), (1 : ℚ))] [((10 : ℚ), (0 : ℚ))] (2, 1) (4, 0) rfl
    (by norm_num) (by norm_num)
